import Mathlib

/-!
Verification of the receptive-field planner (`get_unet_params`) and the
test-time-augmentation flip-set function (`get_tta_flips`) from
`PyTorch/computer_vision/segmentation/Unet/utils/utils.py`.

Sizes and spacings are modelled as rationals: the Python code divides the
working sizes by the per-axis stride with true division (`i / j`) and
rescales the spacings, so the working state is not integral in general.
-/

/-- Model of Python's `min(xs)` on a nonempty list (0 on the empty list,
where the Python call would raise `ValueError`; the planner only calls it
on nonempty lists). -/
def listMin (xs : List ℚ) : ℚ :=
  match xs with
  | [] => 0
  | x :: rest => rest.foldl min x

/-- Source line 186: `spacing_ratio = [spacing / min(spacings) for spacing in spacings]`. -/
def spacingRatio (spacings : List ℚ) : List ℚ :=
  spacings.map (fun s => s / listMin spacings)

/-- Source line 187:
`stride = [2 if ratio <= 2 and size >= 8 else 1 for (ratio, size) in zip(spacing_ratio, sizes)]`. -/
def strideVec (spacings sizes : List ℚ) : List ℕ :=
  List.zipWith (fun r s => if r ≤ 2 ∧ 8 ≤ s then 2 else 1) (spacingRatio spacings) sizes

/-- Source line 188: `kernel = [3 if ratio <= 2 else 1 for ratio in spacing_ratio]`. -/
def kernelVec (spacings : List ℚ) : List ℕ :=
  (spacingRatio spacings).map (fun r => if r ≤ 2 then 3 else 1)

/-- Source line 191: `sizes = [i / j for i, j in zip(sizes, stride)]`
(true division: the working sizes become rationals). -/
def shrinkSizes (sizes : List ℚ) (stride : List ℕ) : List ℚ :=
  List.zipWith (fun (i : ℚ) (j : ℕ) => i / (j : ℚ)) sizes stride

/-- Source line 192: `spacings = [i * j for i, j in zip(spacings, stride)]`. -/
def growSpacings (spacings : List ℚ) (stride : List ℕ) : List ℚ :=
  List.zipWith (fun (i : ℚ) (j : ℕ) => i * (j : ℚ)) spacings stride

/-- Model of the `while True` loop of `get_unet_params` (source lines
185-197), with the hard cap `len(strides) == 5` expressed as fuel: the
fuel counts how many more stages may still be recorded, so the planner
calls this with fuel 5.  Returns the recorded kernels, the recorded
strides, and the final working `spacings` (whose length the
post-processing step reads). -/
def unetLoop : ℕ → List ℚ → List ℚ → List (List ℕ) × List (List ℕ) × List ℚ
  | 0, _, spacings => ([], [], spacings)
  | fuel + 1, sizes, spacings =>
    let stride := strideVec spacings sizes
    let kernel := kernelVec spacings
    if stride.all (fun s => s == 1) then
      ([], [], spacings)
    else
      let r := unetLoop fuel (shrinkSizes sizes stride) (growSpacings spacings stride)
      (kernel :: r.1, stride :: r.2.1, r.2.2)

/-- Model of `get_unet_params` (source lines 181-200), restricted to its
planning core: the configuration fields `in_channels`, `n_class` and the
returned copy of `patch_size` are passed through unchanged by the source
and are omitted.  Returns `(kernels, strides)` after the post-processing
`strides.insert(0, len(spacings) * [1])` and
`kernels.append(len(spacings) * [3])`, where `len(spacings)` reads the
final working spacings list. -/
def get_unet_params (patch_size spacings : List ℚ) : List (List ℕ) × List (List ℕ) :=
  let r := unetLoop 5 patch_size spacings
  (r.1 ++ [List.replicate r.2.2.length 3], List.replicate r.2.2.length 1 :: r.2.1)

/-- Faithful accumulator model of the same `while True` loop (source lines
185-197): one constructor application per executed iteration, `none`
when the given iteration budget is exhausted before the loop breaks.
The two `break` statements of the source are the two `some` branches;
the hard cap is the literal test `len(strides) == 5` of line 196. -/
def unetIter : ℕ → List ℚ → List ℚ → List (List ℕ) → List (List ℕ) →
    Option (List (List ℕ) × List (List ℕ) × List ℚ)
  | 0, _, _, _, _ => none
  | fuel + 1, sizes, spacings, kernels, strides =>
    let stride := strideVec spacings sizes
    if stride.all (fun s => s == 1) then
      some (kernels, strides, spacings)
    else
      let sizes' := shrinkSizes sizes stride
      let spacings' := growSpacings spacings stride
      let kernels' := kernels ++ [kernelVec spacings]
      let strides' := strides ++ [stride]
      if strides'.length = 5 then some (kernels', strides', spacings')
      else unetIter fuel sizes' spacings' kernels' strides'

/-- Model of `get_tta_flips` (source lines 149-152): a total function on
the dimension argument; every `dim` other than 2 takes the 3-D branch. -/
def get_tta_flips (dim : ℤ) : List (List ℕ) :=
  if dim = 2 then [[2], [3], [2, 3]]
  else [[2], [3], [4], [2, 3], [2, 4], [3, 4], [2, 3, 4]]

/-! ### Basic lemmas about the per-iteration vectors -/

theorem length_spacingRatio (spacings : List ℚ) :
    (spacingRatio spacings).length = spacings.length := by
  simp [spacingRatio]

theorem length_strideVec (spacings sizes : List ℚ) :
    (strideVec spacings sizes).length = min spacings.length sizes.length := by
  simp [strideVec, List.length_zipWith, length_spacingRatio]

theorem length_kernelVec (spacings : List ℚ) :
    (kernelVec spacings).length = spacings.length := by
  simp [kernelVec, length_spacingRatio]

theorem forall_mem_zipWith {α β γ : Type} {f : α → β → γ} {P : γ → Prop}
    (h : ∀ a b, P (f a b)) :
    ∀ (l₁ : List α) (l₂ : List β), ∀ x ∈ List.zipWith f l₁ l₂, P x := by
  intro l₁
  induction l₁ with
  | nil => intro l₂ x hx; simp [List.zipWith] at hx
  | cons a t ih =>
    intro l₂ x hx
    cases l₂ with
    | nil => simp [List.zipWith] at hx
    | cons b t' =>
      simp only [List.zipWith, List.mem_cons] at hx
      rcases hx with rfl | hx
      · exact h a b
      · exact ih t' x hx

theorem mem_strideVec (spacings sizes : List ℚ) :
    ∀ x ∈ strideVec spacings sizes, x = 1 ∨ x = 2 := by
  apply forall_mem_zipWith
  intro r s
  by_cases h : r ≤ 2 ∧ 8 ≤ s <;> simp [h]

theorem mem_kernelVec (spacings : List ℚ) :
    ∀ x ∈ kernelVec spacings, x = 1 ∨ x = 3 := by
  intro x hx
  simp only [kernelVec, List.mem_map] at hx
  obtain ⟨r, -, rfl⟩ := hx
  by_cases h : r ≤ 2 <;> simp [h]

/-! ### Unfolding lemmas for the loop -/

theorem unetLoop_early_exit (fuel : ℕ) (sizes spacings : List ℚ)
    (h : (strideVec spacings sizes).all (fun s => s == 1) = true) :
    unetLoop (fuel + 1) sizes spacings = ([], [], spacings) := by
  simp [unetLoop, h]

theorem unetLoop_step (fuel : ℕ) (sizes spacings : List ℚ)
    (h : (strideVec spacings sizes).all (fun s => s == 1) = false) :
    unetLoop (fuel + 1) sizes spacings =
      (kernelVec spacings ::
        (unetLoop fuel (shrinkSizes sizes (strideVec spacings sizes))
          (growSpacings spacings (strideVec spacings sizes))).1,
       strideVec spacings sizes ::
        (unetLoop fuel (shrinkSizes sizes (strideVec spacings sizes))
          (growSpacings spacings (strideVec spacings sizes))).2.1,
       (unetLoop fuel (shrinkSizes sizes (strideVec spacings sizes))
          (growSpacings spacings (strideVec spacings sizes))).2.2) := by
  simp [unetLoop, h]

theorem length_shrinkSizes (sizes : List ℚ) (stride : List ℕ) :
    (shrinkSizes sizes stride).length = min sizes.length stride.length := by
  simp [shrinkSizes, List.length_zipWith]

theorem length_growSpacings (spacings : List ℚ) (stride : List ℕ) :
    (growSpacings spacings stride).length = min spacings.length stride.length := by
  simp [growSpacings, List.length_zipWith]

/-! ### Structural invariants of the loop -/

theorem unetLoop_length_eq (fuel : ℕ) :
    ∀ sizes spacings : List ℚ,
      (unetLoop fuel sizes spacings).1.length = (unetLoop fuel sizes spacings).2.1.length := by
  induction fuel with
  | zero => intro sizes spacings; rfl
  | succ f ih =>
    intro sizes spacings
    by_cases h : (strideVec spacings sizes).all (fun s => s == 1) = true
    · rw [unetLoop_early_exit f sizes spacings h]
    · rw [unetLoop_step f sizes spacings (by simpa using h)]
      simp [ih]

theorem unetLoop_length_le (fuel : ℕ) :
    ∀ sizes spacings : List ℚ, (unetLoop fuel sizes spacings).2.1.length ≤ fuel := by
  induction fuel with
  | zero => intro sizes spacings; simp [unetLoop]
  | succ f ih =>
    intro sizes spacings
    by_cases h : (strideVec spacings sizes).all (fun s => s == 1) = true
    · rw [unetLoop_early_exit f sizes spacings h]; simp
    · rw [unetLoop_step f sizes spacings (by simpa using h)]
      simpa using ih _ _

theorem unetLoop_spacings_length (fuel : ℕ) :
    ∀ sizes spacings : List ℚ, sizes.length = spacings.length →
      (unetLoop fuel sizes spacings).2.2.length = spacings.length := by
  induction fuel with
  | zero => intro sizes spacings _; rfl
  | succ f ih =>
    intro sizes spacings hlen
    by_cases h : (strideVec spacings sizes).all (fun s => s == 1) = true
    · rw [unetLoop_early_exit f sizes spacings h]
    · rw [unetLoop_step f sizes spacings (by simpa using h)]
      have hstride : (strideVec spacings sizes).length = spacings.length := by
        rw [length_strideVec, hlen, min_self]
      have h1 : (shrinkSizes sizes (strideVec spacings sizes)).length = spacings.length := by
        rw [length_shrinkSizes, hstride, hlen, min_self]
      have h2 : (growSpacings spacings (strideVec spacings sizes)).length = spacings.length := by
        rw [length_growSpacings, hstride, min_self]
      rw [ih _ _ (by rw [h1, h2]), h2]

/-! ### Claim theorems: flip sets -/

/-- Claim C4: `get_tta_flips 2` is literally `[[2],[3],[2,3]]` and
`get_tta_flips 3` is literally `[[2],[3],[4],[2,3],[2,4],[3,4],[2,3,4]]`,
with both length and order fixed. -/
theorem get_tta_flips_literal :
    get_tta_flips 2 = [[2], [3], [2, 3]] ∧
    get_tta_flips 3 = [[2], [3], [4], [2, 3], [2, 4], [3, 4], [2, 3, 4]] := by
  constructor <;> rfl

/-- Claim C3 counterexample: at `dim = 4` (outside `{2,3}`) the flip-set
function does not fail: it returns the default 3-D enumeration.  The
source function is total — any `dim` other than 2 takes the second
branch, and no error is ever raised. -/
theorem get_tta_flips_no_error_counterexample :
    get_tta_flips 4 = [[2], [3], [4], [2, 3], [2, 4], [3, 4], [2, 3, 4]] := by
  rfl

/-- Claim C3 (amended): for every `dim ≠ 2`, including every value outside
`{2,3}`, `get_tta_flips` returns the 3-D enumeration
`[[2],[3],[4],[2,3],[2,4],[3,4],[2,3,4]]` instead of failing. -/
theorem get_tta_flips_default (d : ℤ) (h : d ≠ 2) :
    get_tta_flips d = [[2], [3], [4], [2, 3], [2, 4], [3, 4], [2, 3, 4]] := by
  simp [get_tta_flips, h]

/-- Witness for C3 (amended) at `dim = 7`. -/
theorem get_tta_flips_default_witness :
    (7 : ℤ) ≠ 2 ∧
    get_tta_flips 7 = [[2], [3], [4], [2, 3], [2, 4], [3, 4], [2, 3, 4]] :=
  ⟨by decide, get_tta_flips_default 7 (by decide)⟩

/-! ### Claim theorems: planner list shape -/

/-- Claim C5: for every input, the stride list and the kernel list returned by
`get_unet_params` have equal length (the loop appends to both in
lockstep; the post-processing adds one entry to each). -/
theorem get_unet_params_length_eq (patch_size spacings : List ℚ) :
    (get_unet_params patch_size spacings).2.length
      = (get_unet_params patch_size spacings).1.length := by
  simp [get_unet_params, unetLoop_length_eq 5 patch_size spacings]

/-- Claim C7: the planner records at most 5 downsampling stages, so the
returned stride list (with the prepended all-ones entry) has at most 6
entries. -/
theorem get_unet_params_stage_cap (patch_size spacings : List ℚ) :
    (unetLoop 5 patch_size spacings).2.1.length ≤ 5 ∧
    (get_unet_params patch_size spacings).2.length ≤ 6 := by
  refine ⟨unetLoop_length_le 5 patch_size spacings, ?_⟩
  simp only [get_unet_params, List.length_cons]
  have := unetLoop_length_le 5 patch_size spacings
  omega

/-- Claim C6: on equal-length inputs the first stride entry is the all-ones
vector and the last kernel entry is the all-threes vector, both of the
input's length. -/
theorem get_unet_params_first_last (patch_size spacings : List ℚ)
    (h : patch_size.length = spacings.length) :
    (get_unet_params patch_size spacings).2.head? = some (List.replicate spacings.length 1) ∧
    (get_unet_params patch_size spacings).1.getLast? = some (List.replicate spacings.length 3) := by
  have hsl := unetLoop_spacings_length 5 patch_size spacings h
  constructor
  · simp [get_unet_params, hsl]
  · simp [get_unet_params, hsl, List.getLast?_concat]

/-- Witness for C6 at `patch_size = [12, 20]`, `spacings = [1, 2]`. -/
theorem get_unet_params_first_last_witness :
    ([(12 : ℚ), 20].length = [(1 : ℚ), 2].length) ∧
    (get_unet_params [(12 : ℚ), 20] [1, 2]).2.head? = some (List.replicate 2 1) ∧
    (get_unet_params [(12 : ℚ), 20] [1, 2]).1.getLast? = some (List.replicate 2 3) := by
  refine ⟨rfl, ?_⟩
  have := get_unet_params_first_last [(12 : ℚ), 20] [1, 2] rfl
  simpa using this

/-- Invariant of the loop: on equal-length inputs, every recorded kernel
vector has the input's length with entries in `{1, 3}`, and every
recorded stride vector has the input's length with entries in `{1, 2}`. -/
theorem unetLoop_entry_shape (fuel : ℕ) :
    ∀ sizes spacings : List ℚ, sizes.length = spacings.length →
      (∀ k ∈ (unetLoop fuel sizes spacings).1,
        k.length = spacings.length ∧ ∀ x ∈ k, x = 1 ∨ x = 3) ∧
      (∀ v ∈ (unetLoop fuel sizes spacings).2.1,
        v.length = spacings.length ∧ ∀ x ∈ v, x = 1 ∨ x = 2) := by
  induction fuel with
  | zero => intro sizes spacings _; simp [unetLoop]
  | succ f ih =>
    intro sizes spacings hlen
    by_cases h : (strideVec spacings sizes).all (fun s => s == 1) = true
    · rw [unetLoop_early_exit f _ _ h]; simp
    · rw [unetLoop_step f _ _ (by simpa using h)]
      have hstride : (strideVec spacings sizes).length = spacings.length := by
        rw [length_strideVec, hlen, min_self]
      have h1 : (shrinkSizes sizes (strideVec spacings sizes)).length = spacings.length := by
        rw [length_shrinkSizes, hstride, hlen, min_self]
      have h2 : (growSpacings spacings (strideVec spacings sizes)).length = spacings.length := by
        rw [length_growSpacings, hstride, min_self]
      obtain ⟨ihk, ihs⟩ := ih (shrinkSizes sizes (strideVec spacings sizes))
        (growSpacings spacings (strideVec spacings sizes)) (by rw [h1, h2])
      constructor
      · intro k hk
        rcases List.mem_cons.mp hk with rfl | hk
        · exact ⟨length_kernelVec spacings, mem_kernelVec spacings⟩
        · obtain ⟨hl, he⟩ := ihk k hk
          exact ⟨by rw [hl, h2], he⟩
      · intro v hv
        rcases List.mem_cons.mp hv with rfl | hv
        · exact ⟨hstride, mem_strideVec spacings sizes⟩
        · obtain ⟨hl, he⟩ := ihs v hv
          exact ⟨by rw [hl, h2], he⟩

/-- Claim C8: on equal-length inputs, every kernel vector of the plan has
entries in `{1, 3}`, every stride vector has entries in `{1, 2}`, and
every vector has the same length as the spacing vector. -/
theorem get_unet_params_entry_shape (patch_size spacings : List ℚ)
    (h : patch_size.length = spacings.length) :
    (∀ k ∈ (get_unet_params patch_size spacings).1,
      k.length = spacings.length ∧ ∀ x ∈ k, x = 1 ∨ x = 3) ∧
    (∀ v ∈ (get_unet_params patch_size spacings).2,
      v.length = spacings.length ∧ ∀ x ∈ v, x = 1 ∨ x = 2) := by
  have hsl := unetLoop_spacings_length 5 patch_size spacings h
  obtain ⟨hk, hs⟩ := unetLoop_entry_shape 5 patch_size spacings h
  constructor
  · intro k hkmem
    simp only [get_unet_params, List.mem_append, List.mem_singleton] at hkmem
    rcases hkmem with hkmem | rfl
    · exact hk k hkmem
    · refine ⟨by simp [hsl], ?_⟩
      intro x hx
      right
      exact List.eq_of_mem_replicate hx
  · intro v hvmem
    simp only [get_unet_params, List.mem_cons] at hvmem
    rcases hvmem with rfl | hvmem
    · refine ⟨by simp [hsl], ?_⟩
      intro x hx
      left
      exact List.eq_of_mem_replicate hx
    · exact hs v hvmem

/-- Witness for C8 at `patch_size = [40, 56, 40]`, `spacings = [1, 1, 5]`. -/
theorem get_unet_params_entry_shape_witness :
    ([(40 : ℚ), 56, 40].length = [(1 : ℚ), 1, 5].length) ∧
    (∀ k ∈ (get_unet_params [(40 : ℚ), 56, 40] [1, 1, 5]).1,
      k.length = 3 ∧ ∀ x ∈ k, x = 1 ∨ x = 3) ∧
    (∀ v ∈ (get_unet_params [(40 : ℚ), 56, 40] [1, 1, 5]).2,
      v.length = 3 ∧ ∀ x ∈ v, x = 1 ∨ x = 2) := by
  refine ⟨rfl, ?_⟩
  have := get_unet_params_entry_shape [(40 : ℚ), 56, 40] [1, 1, 5] rfl
  simpa using this

/-- Claim C10: when the very first iteration already assigns stride 1 to every
axis (for instance because every patch dimension is below 8), the plan
is still non-empty: exactly one all-ones stride vector and one
all-threes kernel vector. -/
theorem get_unet_params_no_downsample (patch_size spacings : List ℚ)
    (h : ∀ x ∈ strideVec spacings patch_size, x = 1) :
    get_unet_params patch_size spacings =
      ([List.replicate spacings.length 3], [List.replicate spacings.length 1]) := by
  have hb : (strideVec spacings patch_size).all (fun s => s == 1) = true := by
    rw [List.all_eq_true]
    intro x hx
    simpa using h x hx
  have hloop : unetLoop 5 patch_size spacings = ([], [], spacings) := by
    rw [show (5 : ℕ) = 4 + 1 from rfl, unetLoop_early_exit 4 patch_size spacings hb]
  simp [get_unet_params, hloop]

/-- Witness for C10 at `patch_size = [4, 4]`, `spacings = [1, 1]`. -/
theorem get_unet_params_no_downsample_witness :
    (∀ x ∈ strideVec [1, 1] [(4 : ℚ), 4], x = 1) ∧
    get_unet_params [(4 : ℚ), 4] [1, 1] =
      ([List.replicate 2 3], [List.replicate 2 1]) := by
  have hvec : strideVec [1, 1] [(4 : ℚ), 4] = [1, 1] := by
    norm_num [strideVec, spacingRatio, listMin]
  have hyp : ∀ x ∈ strideVec [1, 1] [(4 : ℚ), 4], x = 1 := by
    rw [hvec]
    intro x hx
    simpa using hx
  refine ⟨hyp, ?_⟩
  have := get_unet_params_no_downsample [(4 : ℚ), 4] [1, 1] hyp
  simpa using this

/-! ### Isotropic runs (claim C1) -/

theorem foldl_min_replicate (s : ℚ) : ∀ m : ℕ, List.foldl min s (List.replicate m s) = s := by
  intro m
  induction m with
  | zero => rfl
  | succ k ih => rw [List.replicate_succ, List.foldl_cons, min_self]; exact ih

theorem listMin_replicate (n : ℕ) (s : ℚ) (hn : 0 < n) :
    listMin (List.replicate n s) = s := by
  obtain ⟨m, rfl⟩ : ∃ m, n = m + 1 := ⟨n - 1, by omega⟩
  rw [List.replicate_succ]
  show List.foldl min s (List.replicate m s) = s
  exact foldl_min_replicate s m

theorem spacingRatio_replicate (n : ℕ) (s : ℚ) (hn : 0 < n) (hs : s ≠ 0) :
    spacingRatio (List.replicate n s) = List.replicate n 1 := by
  simp [spacingRatio, listMin_replicate n s hn, List.map_replicate, div_self hs]

theorem kernelVec_replicate (n : ℕ) (s : ℚ) (hn : 0 < n) (hs : s ≠ 0) :
    kernelVec (List.replicate n s) = List.replicate n 3 := by
  rw [kernelVec, spacingRatio_replicate n s hn hs, List.map_replicate]
  norm_num

theorem strideVec_replicate_two (n : ℕ) (s z : ℚ) (hn : 0 < n) (hs : s ≠ 0)
    (h8 : (8 : ℚ) ≤ z) :
    strideVec (List.replicate n s) (List.replicate n z) = List.replicate n 2 := by
  rw [strideVec, spacingRatio_replicate n s hn hs, List.zipWith_replicate, min_self]
  rw [if_pos ⟨by norm_num, h8⟩]

theorem strideVec_replicate_one (n : ℕ) (s z : ℚ) (hn : 0 < n) (hs : s ≠ 0)
    (h8 : ¬ (8 : ℚ) ≤ z) :
    strideVec (List.replicate n s) (List.replicate n z) = List.replicate n 1 := by
  rw [strideVec, spacingRatio_replicate n s hn hs, List.zipWith_replicate, min_self]
  rw [if_neg (fun hc => h8 hc.2)]

theorem unetLoop_iso (fuel : ℕ) :
    ∀ (a n : ℕ) (s : ℚ), 0 < n → 0 < s →
      unetLoop fuel (List.replicate n ((2 : ℚ) ^ a)) (List.replicate n s) =
        (List.replicate (min fuel (a - 2)) (List.replicate n 3),
         List.replicate (min fuel (a - 2)) (List.replicate n 2),
         List.replicate n ((2 : ℚ) ^ (min fuel (a - 2)) * s)) := by
  induction fuel with
  | zero =>
    intro a n s hn hs
    simp [unetLoop]
  | succ f ih =>
    intro a n s hn hs
    have hs0 : s ≠ 0 := ne_of_gt hs
    by_cases ha : 3 ≤ a
    · have h8 : (8 : ℚ) ≤ 2 ^ a := by
        calc (8 : ℚ) = 2 ^ 3 := by norm_num
        _ ≤ 2 ^ a := pow_le_pow_right₀ one_le_two ha
      have hstr := strideVec_replicate_two n s ((2 : ℚ) ^ a) hn hs0 h8
      have hall : (strideVec (List.replicate n s) (List.replicate n ((2 : ℚ) ^ a))).all
          (fun s => s == 1) = false := by
        rw [hstr, List.all_replicate, if_neg hn.ne']
        rfl
      rw [unetLoop_step f _ _ hall, hstr]
      have hsizes : shrinkSizes (List.replicate n ((2 : ℚ) ^ a)) (List.replicate n 2) =
          List.replicate n ((2 : ℚ) ^ (a - 1)) := by
        rw [shrinkSizes, List.zipWith_replicate, min_self]
        congr 1
        have hc : ((2 : ℕ) : ℚ) = 2 := by norm_num
        rw [hc]
        have h2 : (2 : ℚ) ^ a = 2 ^ (a - 1) * 2 := by
          rw [← pow_succ]
          congr 1
          omega
        rw [h2, mul_div_cancel_right₀]
        norm_num
      have hspac : growSpacings (List.replicate n s) (List.replicate n 2) =
          List.replicate n (s * 2) := by
        rw [growSpacings, List.zipWith_replicate, min_self]
        norm_num
      rw [hsizes, hspac, kernelVec_replicate n s hn hs0]
      rw [ih (a - 1) n (s * 2) hn (by positivity)]
      have hmin : min (f + 1) (a - 2) = min f (a - 1 - 2) + 1 := by omega
      rw [hmin]
      simp only [List.replicate_succ, Prod.mk.injEq]
      refine ⟨trivial, trivial, ?_⟩
      congr 1
      rw [pow_succ]
      ring
    · have h8 : ¬ (8 : ℚ) ≤ 2 ^ a := by
        have hle : (2 : ℚ) ^ a ≤ 2 ^ 2 := pow_le_pow_right₀ one_le_two (by omega)
        norm_num at hle ⊢
        linarith
      have hstr := strideVec_replicate_one n s ((2 : ℚ) ^ a) hn hs0 h8
      have hall : (strideVec (List.replicate n s) (List.replicate n ((2 : ℚ) ^ a))).all
          (fun s => s == 1) = true := by
        rw [hstr, List.all_replicate]
        split <;> rfl
      rw [unetLoop_early_exit f _ _ hall]
      have hmin : min (f + 1) (a - 2) = 0 := by omega
      rw [hmin]
      simp

/-- Claim C1 (amended): for isotropic spacing `s > 0` and a patch whose
dimensions are all equal to the same power of two `2 ^ a ≥ 8`, the loop
of `get_unet_params` records exactly `min 5 (log2 (min_dim) - 2)`
downsampling stages, each with stride 2 on every axis and kernel 3 on
every axis.  (The original claim, over patches whose dimensions are
powers of two that may differ across axes, is false: see the
counterexample.) -/
theorem get_unet_params_isotropic (n a : ℕ) (s : ℚ) (hn : 0 < n) (hs : 0 < s)
    (ha : 3 ≤ a) :
    (unetLoop 5 (List.replicate n ((2 : ℚ) ^ a)) (List.replicate n s)).2.1 =
      List.replicate (min 5 (Nat.log2 (2 ^ a) - 2)) (List.replicate n 2) ∧
    (unetLoop 5 (List.replicate n ((2 : ℚ) ^ a)) (List.replicate n s)).1 =
      List.replicate (min 5 (Nat.log2 (2 ^ a) - 2)) (List.replicate n 3) := by
  have hlog : Nat.log2 ((2 : ℕ) ^ a) = a := by
    rw [Nat.log2_eq_log_two]
    exact Nat.log_pow (by norm_num) a
  rw [hlog, unetLoop_iso 5 a n s hn hs]
  exact ⟨rfl, rfl⟩

/-- Witness for C1 (amended) at `n = 2`, `a = 4`, `s = 1`: the patch is
`[16, 16]`, the spacing `[1, 1]`, giving `min 5 (4 - 2) = 2` stages. -/
theorem get_unet_params_isotropic_witness :
    (0 < 2) ∧ (0 < (1 : ℚ)) ∧ (3 ≤ 4) ∧
    ((unetLoop 5 (List.replicate 2 ((2 : ℚ) ^ 4)) (List.replicate 2 1)).2.1 =
      List.replicate (min 5 (Nat.log2 (2 ^ 4) - 2)) (List.replicate 2 2) ∧
     (unetLoop 5 (List.replicate 2 ((2 : ℚ) ^ 4)) (List.replicate 2 1)).1 =
      List.replicate (min 5 (Nat.log2 (2 ^ 4) - 2)) (List.replicate 2 3)) :=
  ⟨by norm_num, by norm_num, by norm_num,
    get_unet_params_isotropic 2 4 1 (by norm_num) (by norm_num) (by norm_num)⟩

/-- Claim C1 counterexample: the patch `[8, 16]` has all dimensions powers
of two `≥ 8` and the spacing `[1, 1]` is isotropic, yet the loop records
2 stages — not `min 5 (log2 8 - 2) = 1` — and the second recorded stage
is `[1, 2]`, which does not have stride 2 on every axis. -/
theorem get_unet_params_isotropic_counterexample :
    ((unetLoop 5 [(8 : ℚ), 16] [1, 1]).2.1).length ≠ min 5 (Nat.log2 8 - 2) ∧
    (unetLoop 5 [(8 : ℚ), 16] [1, 1]).2.1 = [[2, 2], [1, 2]] := by
  have h : (unetLoop 5 [(8 : ℚ), 16] [1, 1]).2.1 = [[2, 2], [1, 2]] := by
    norm_num [unetLoop, strideVec, kernelVec, spacingRatio, listMin, shrinkSizes, growSpacings]
  have hlog : Nat.log2 8 = 3 := by
    rw [show (8 : ℕ) = 2 ^ 3 by norm_num, Nat.log2_eq_log_two]
    exact Nat.log_pow (by norm_num) 3
  refine ⟨?_, h⟩
  rw [h, hlog]
  decide

/-! ### Anisotropic axis rule (claim C2) -/

/-- Claim C2 (amended): at every loop iteration — the state `(sizes,
spacings)` ranges over all reachable states, and the third conjunct shows
that a recorded stage is exactly `(kernelVec, strideVec)` of its state —
an axis whose current spacing ratio exceeds 2 receives stride 1 and
kernel 1, while an axis with ratio at most 2 receives kernel 3 and
stride 2 when its working size is at least 8 (stride 1 below 8).  The
anisotropic axis is therefore frozen only while its ratio stays above 2:
once the finer axes have been downsampled enough to double their
spacings past half of its own, it rejoins downsampling (see the
counterexample to the original claim). -/
theorem anisotropic_axis_rule (spacings sizes : List ℚ) (i : ℕ)
    (hi : i < spacings.length) (hj : i < sizes.length) :
    (2 < spacings.getD i 0 / listMin spacings →
      (strideVec spacings sizes).getD i 0 = 1 ∧ (kernelVec spacings).getD i 0 = 1) ∧
    (spacings.getD i 0 / listMin spacings ≤ 2 →
      (kernelVec spacings).getD i 0 = 3 ∧
      (8 ≤ sizes.getD i 0 → (strideVec spacings sizes).getD i 0 = 2) ∧
      (sizes.getD i 0 < 8 → (strideVec spacings sizes).getD i 0 = 1)) ∧
    (∀ fuel : ℕ,
      (strideVec spacings sizes).all (fun s => s == 1) = false →
      (unetLoop (fuel + 1) sizes spacings).2.1.head? = some (strideVec spacings sizes) ∧
      (unetLoop (fuel + 1) sizes spacings).1.head? = some (kernelVec spacings)) := by
  have hs : i < (strideVec spacings sizes).length := by
    rw [length_strideVec]
    exact lt_min hi hj
  have hk : i < (kernelVec spacings).length := by
    rw [length_kernelVec]
    exact hi
  have e1 : (strideVec spacings sizes).getD i 0 =
      if spacings[i] / listMin spacings ≤ 2 ∧ 8 ≤ sizes[i] then 2 else 1 := by
    rw [List.getD_eq_getElem _ _ hs]
    simp only [strideVec, List.getElem_zipWith, spacingRatio, List.getElem_map]
  have e2 : (kernelVec spacings).getD i 0 =
      if spacings[i] / listMin spacings ≤ 2 then 3 else 1 := by
    rw [List.getD_eq_getElem _ _ hk]
    simp only [kernelVec, List.getElem_map, spacingRatio]
  have e3 : spacings.getD i 0 = spacings[i] := List.getD_eq_getElem _ _ hi
  have e4 : sizes.getD i 0 = sizes[i] := List.getD_eq_getElem _ _ hj
  rw [e1, e2, e3, e4]
  refine ⟨?_, ?_, ?_⟩
  · intro hgt
    constructor
    · rw [if_neg (fun hc => absurd hc.1 (not_le.mpr hgt))]
    · rw [if_neg (not_le.mpr hgt)]
  · intro hle
    refine ⟨if_pos hle, fun h8 => if_pos ⟨hle, h8⟩, fun hlt => ?_⟩
    rw [if_neg (fun hc => absurd hc.2 (not_le.mpr hlt))]
  · intro fuel hall
    rw [unetLoop_step fuel _ _ hall]
    exact ⟨rfl, rfl⟩

/-- Witness for C2 (amended) at `spacings = [1, 1, 5]`,
`sizes = [64, 64, 64]`, axis `i = 2` (the coarse axis, ratio 5). -/
theorem anisotropic_axis_rule_witness :
    (2 < [(1 : ℚ), 1, 5].length) ∧ (2 < [(64 : ℚ), 64, 64].length) ∧
    ((2 < [(1 : ℚ), 1, 5].getD 2 0 / listMin [1, 1, 5] →
      (strideVec [1, 1, 5] [(64 : ℚ), 64, 64]).getD 2 0 = 1 ∧
      (kernelVec [(1 : ℚ), 1, 5]).getD 2 0 = 1) ∧
    ([(1 : ℚ), 1, 5].getD 2 0 / listMin [1, 1, 5] ≤ 2 →
      (kernelVec [(1 : ℚ), 1, 5]).getD 2 0 = 3 ∧
      (8 ≤ [(64 : ℚ), 64, 64].getD 2 0 →
        (strideVec [1, 1, 5] [(64 : ℚ), 64, 64]).getD 2 0 = 2) ∧
      ([(64 : ℚ), 64, 64].getD 2 0 < 8 →
        (strideVec [1, 1, 5] [(64 : ℚ), 64, 64]).getD 2 0 = 1)) ∧
    (∀ fuel : ℕ,
      (strideVec [1, 1, 5] [(64 : ℚ), 64, 64]).all (fun s => s == 1) = false →
      (unetLoop (fuel + 1) [(64 : ℚ), 64, 64] [1, 1, 5]).2.1.head? =
        some (strideVec [1, 1, 5] [(64 : ℚ), 64, 64]) ∧
      (unetLoop (fuel + 1) [(64 : ℚ), 64, 64] [1, 1, 5]).1.head? =
        some (kernelVec [(1 : ℚ), 1, 5]))) :=
  ⟨by decide, by decide,
    anisotropic_axis_rule [1, 1, 5] [(64 : ℚ), 64, 64] 2 (by decide) (by decide)⟩

/-- Claim C2 counterexample: with `spacings = [1, 1, 5]` (ratio 5 > 2 on
the third axis) and patch `[64, 64, 64]`, the third recorded stage
assigns the anisotropic axis stride 2 and kernel 3 — not stride 1 and
kernel 1 at every stage as claimed: after two stages the finer axes'
spacings have grown to 4, so the ratio of the third axis drops
to `5/4 ≤ 2` and it rejoins downsampling. -/
theorem anisotropic_counterexample :
    2 < ([(1 : ℚ), 1, 5].getD 2 0) / listMin [1, 1, 5] ∧
    ((unetLoop 5 [(64 : ℚ), 64, 64] [1, 1, 5]).2.1).getD 2 [] = [2, 2, 2] ∧
    ((unetLoop 5 [(64 : ℚ), 64, 64] [1, 1, 5]).1).getD 2 [] = [3, 3, 3] := by
  refine ⟨by norm_num [listMin], ?_, ?_⟩ <;>
    norm_num [unetLoop, strideVec, kernelVec, spacingRatio, listMin, shrinkSizes,
      growSpacings]

/-! ### Termination of the while loop (claim C9) -/

theorem unetIter_early (fuel : ℕ) (sizes spacings : List ℚ) (ks ss : List (List ℕ))
    (h : (strideVec spacings sizes).all (fun s => s == 1) = true) :
    unetIter (fuel + 1) sizes spacings ks ss = some (ks, ss, spacings) := by
  simp [unetIter, h]

theorem unetIter_cap (fuel : ℕ) (sizes spacings : List ℚ) (ks ss : List (List ℕ))
    (h : (strideVec spacings sizes).all (fun s => s == 1) = false)
    (hlen : ss.length + 1 = 5) :
    unetIter (fuel + 1) sizes spacings ks ss =
      some (ks ++ [kernelVec spacings], ss ++ [strideVec spacings sizes],
            growSpacings spacings (strideVec spacings sizes)) := by
  simp [unetIter, h, hlen]

theorem unetIter_go (fuel : ℕ) (sizes spacings : List ℚ) (ks ss : List (List ℕ))
    (h : (strideVec spacings sizes).all (fun s => s == 1) = false)
    (hlen : ss.length + 1 ≠ 5) :
    unetIter (fuel + 1) sizes spacings ks ss =
      unetIter fuel (shrinkSizes sizes (strideVec spacings sizes))
        (growSpacings spacings (strideVec spacings sizes))
        (ks ++ [kernelVec spacings]) (ss ++ [strideVec spacings sizes]) := by
  simp [unetIter, h, hlen]

theorem unetIter_eq_unetLoop (fuel : ℕ) :
    ∀ (sizes spacings : List ℚ) (ks ss : List (List ℕ)),
      0 < fuel → ss.length + fuel = 5 →
      unetIter fuel sizes spacings ks ss =
        some (ks ++ (unetLoop fuel sizes spacings).1,
              ss ++ (unetLoop fuel sizes spacings).2.1,
              (unetLoop fuel sizes spacings).2.2) := by
  induction fuel with
  | zero =>
    intro sizes spacings ks ss hpos _
    exact absurd hpos (by norm_num)
  | succ f ih =>
    intro sizes spacings ks ss _ hlen
    by_cases hall : (strideVec spacings sizes).all (fun s => s == 1) = true
    · rw [unetIter_early f _ _ _ _ hall, unetLoop_early_exit f _ _ hall]
      simp
    · have hallf : (strideVec spacings sizes).all (fun s => s == 1) = false := by
        simpa using hall
      rw [unetLoop_step f _ _ hallf]
      cases f with
      | zero =>
        have h4 : ss.length + 1 = 5 := by omega
        rw [unetIter_cap 0 _ _ _ _ hallf h4]
        simp [unetLoop]
      | succ g =>
        have hne : ss.length + 1 ≠ 5 := by omega
        have hlen' : (ss ++ [strideVec spacings sizes]).length + (g + 1) = 5 := by
          simp only [List.length_append, List.length_cons, List.length_nil]
          omega
        rw [unetIter_go (g + 1) _ _ _ _ hallf hne]
        rw [ih (shrinkSizes sizes (strideVec spacings sizes))
          (growSpacings spacings (strideVec spacings sizes))
          (ks ++ [kernelVec spacings]) (ss ++ [strideVec spacings sizes])
          (Nat.succ_pos g) hlen']
        simp

/-- Claim C9: the `while True` loop terminates on every input.  The
faithful iteration model reaches one of its two `break` statements
within 5 iterations starting from empty accumulators (either the
all-ones early exit or the `len(strides) == 5` hard cap), and the number
of recorded stages never exceeds 5. -/
theorem unet_while_loop_terminates (sizes spacings : List ℚ) :
    unetIter 5 sizes spacings [] [] =
      some ((unetLoop 5 sizes spacings).1, (unetLoop 5 sizes spacings).2.1,
            (unetLoop 5 sizes spacings).2.2) ∧
    (unetLoop 5 sizes spacings).2.1.length ≤ 5 := by
  constructor
  · have h := unetIter_eq_unetLoop 5 sizes spacings [] [] (by norm_num) (by simp)
    simpa using h
  · exact unetLoop_length_le 5 sizes spacings
